import Mathlib

/-!
Verification of the utility helpers in `src/algokit/core/utils.py`.

Each Python function used by a claim is shallowly embedded as an executable
Lean definition.  Pure string/list logic is translated directly; operations
that consult the operating system (`shutil.which`, `proc.run`, the file
system, `dotenv.dotenv_values`) are abstracted as explicit function
parameters, so every theorem quantifies over the environment the process
could observe.  The spinner thread and the runner are modelled as the traces
of events/terminal operations they perform; the nondeterministic scheduling
of the two threads is captured by a parameter `k`, the number of times the
animation loop reads the stop flag before the single `set` call by the main
thread becomes visible to it.  Machine integers do not occur (Python ints
are unbounded), so `Nat`/`Int` are exact.
-/

/-- Python exceptions raised by the embedded code: `ValueError` and
`click.ClickException`, each carrying its message. -/
inductive PyErr where
  | valueError (msg : String)
  | clickException (msg : String)
deriving DecidableEq, Repr

/-! ### Version helpers

`extract_version_triple` uses `re.search(r"\d+\.\d+\.\d+", s)`: the leftmost
position at which the pattern matches wins, and at that position each `\d+`
is greedy (it can never give back a digit, because the character required
after it is a literal `.`, which is not a digit).  The embedding scans the
positions of the string left to right and at each position runs the
deterministic greedy matcher. -/

/-- One `\d+\.` step of the matcher: consume the maximal digit run, then
require a literal dot; returns the run and the remainder after the dot. -/
def expectDotRun (l : List Char) : Option (List Char × List Char) :=
  match l.dropWhile Char.isDigit with
  | '.' :: r => some (l.takeWhile Char.isDigit, r)
  | _ => none

/-- Greedy match of `\d+\.\d+\.\d+` anchored at the head of `l`
(`re` semantics: every `\d+` takes the maximal digit run — forced for the
first two because the literal `.` that must follow is not a digit, and
greedy for the last). -/
def matchTripleAt (l : List Char) : Option (List Char) :=
  (expectDotRun l).bind fun p1 =>
    (expectDotRun p1.2).bind fun p2 =>
      let d3 := p2.2.takeWhile Char.isDigit
      if p1.1.isEmpty || p2.1.isEmpty || d3.isEmpty then none
      else some (p1.1 ++ '.' :: (p2.1 ++ '.' :: d3))

/-- `re.search`: try the anchored matcher at position 0, 1, 2, ... and return
the first success (the leftmost match). -/
def searchTriple : List Char → Option (List Char)
  | [] => none
  | c :: rest =>
    match matchTripleAt (c :: rest) with
    | some m => some m
    | none => searchTriple rest

/-- `extract_version_triple(version_str)`: first `X.Y.Z` substring, or
`ValueError("Unable to parse version number")`. -/
def extract_version_triple (version_str : String) : Except PyErr String :=
  match searchTriple version_str.data with
  | some m => Except.ok (String.mk m)
  | none => Except.error (PyErr.valueError "Unable to parse version number")

/-- Spec-side notion, independent of the matcher: `l` is exactly a dotted
triple of nonempty digit runs (`\d+\.\d+\.\d+` matched in full). -/
def IsTriple (l : List Char) : Prop :=
  ∃ d1 d2 d3 : List Char,
    d1 ≠ [] ∧ d2 ≠ [] ∧ d3 ≠ [] ∧
    (∀ c ∈ d1, c.isDigit = true) ∧ (∀ c ∈ d2, c.isDigit = true) ∧
    (∀ c ∈ d3, c.isDigit = true) ∧
    l = d1 ++ '.' :: (d2 ++ '.' :: d3)

/-- Spec-side notion: some contiguous substring of `s` is a dotted triple. -/
def ContainsTriple (s : String) : Prop :=
  ∃ pre mid post : List Char, s.data = pre ++ mid ++ post ∧ IsTriple mid

/-- Python tuple comparison `>=` on integer tuples of any arity:
lexicographic, a strict prefix is strictly smaller. -/
def tupleGe : List Nat → List Nat → Bool
  | _, [] => true
  | [], _ :: _ => false
  | a :: as_, b :: bs =>
    if b < a then true
    else if a < b then false
    else tupleGe as_ bs

/-- `l.split(sep)` on character lists (like Python `str.split` with an
explicit separator: the empty input gives one empty group). -/
def splitOnChar (sep : Char) : List Char → List (List Char)
  | [] => [[]]
  | c :: rest =>
    if c = sep then [] :: splitOnChar sep rest
    else
      match splitOnChar sep rest with
      | [] => [[c]]
      | g :: gs => (c :: g) :: gs

/-- Python `int` on one split segment, restricted to the nonnegative
decimal literals relevant here: `some` exactly on nonempty all-digit
segments, `none` modelling the `ValueError` that `int` raises otherwise. -/
def pyIntSeg (g : List Char) : Option Nat :=
  if g ≠ [] ∧ g.all Char.isDigit then
    some (g.foldl (fun acc c => acc * 10 + (c.toNat - 48)) 0)
  else none

/-- `tuple(map(int, s.split(".")))`. -/
def versionTuple (s : String) : Option (List Nat) :=
  (splitOnChar '.' s.data).mapM pyIntSeg

/-- `is_minimum_version(system_version, minimum_version)`:
`tuple(map(int, system.split("."))) >= tuple(map(int, minimum.split(".")))`.
`none` models a raised `ValueError` from `int`. -/
def is_minimum_version (system_version minimum_version : String) : Option Bool := do
  let sys ← versionTuple system_version
  let mini ← versionTuple minimum_version
  return tupleGe sys mini

/-! ### Spinner animation and the runner

`animate(name, stop_event)` is a loop run on a worker thread:

    while not stop_event.is_set():
        for frame in spinner["frames"]:
            if stop_event.is_set(): break
            sys.stdout.write(f"\r{frame} {name}"); sys.stdout.write(CLEAR_LINE)
            sys.stdout.flush(); time.sleep(0.001 * spinner["interval"])
    sys.stdout.write("\r ")

It is embedded as the exact sequence of observable operations it performs
(flag reads, stdout writes, flushes, sleeps).  The only nondeterminism is
when the main thread's single `stop_event.set()` becomes visible: the
parameter `k` is the number of `is_set()` calls that still return `False`;
every later read returns `True` (a `threading.Event` is never cleared
here, so the flag is monotone). -/

/-- One observable operation of the animation thread. -/
inductive AOp where
  | check (b : Bool)
  | write (s : String)
  | flush
  | sleepMs (ms : Nat)
deriving DecidableEq, Repr

/-- `CLEAR_LINE = "\033[K"` (ESC is `\x1b`). -/
def CLEAR_LINE : String := "\x1b[K"

/-- `SPINNER_FRAMES` from the source. -/
def SPINNER_FRAMES : List String := ["⠋", "⠙", "⠹", "⠸", "⠼", "⠴", "⠦", "⠧", "⠇", "⠏"]

/-- `spinner["interval"] = 100`.  The per-frame call
`time.sleep(0.001 * spinner["interval"])` sleeps `0.001 * 100` seconds,
i.e. exactly `spinner_interval` milliseconds, as a single uninterrupted
sleep. -/
def spinner_interval : Nat := 100

/-- The body of one frame iteration after its flag read came back `False`:
write `"\r<frame> <name>"`, write `CLEAR_LINE`, flush, sleep one interval. -/
def frameOps (name frame : String) : List AOp :=
  [AOp.write ("\r" ++ frame ++ " " ++ name), AOp.write CLEAR_LINE, AOp.flush,
    AOp.sleepMs spinner_interval]

/-- The `for frame in frames` loop with `n` flag reads still returning
`False`; returns the operations performed and the remaining `False` budget
(`0` when the loop was broken by a `True` read). -/
def forTrace (name : String) : List String → Nat → List AOp × Nat
  | [], n => ([], n)
  | _ :: _, 0 => ([AOp.check true], 0)
  | frame :: frames, n + 1 =>
    let rest := forTrace name frames n
    (AOp.check false :: (frameOps name frame ++ rest.1), rest.2)

/-- The `while not stop_event.is_set()` loop with `n` flag reads still
returning `False`, written with a structural fuel so that traces reduce in
the kernel.  Each iteration strictly shrinks the `False` budget, so `fuel`
bounds the iteration count; `fuel = n + 1` never runs out
(`whileTraceAux_fuel_irrelevant` below). -/
def whileTraceAux (name : String) : Nat → Nat → List AOp
  | 0, _ => []
  | _ + 1, 0 => [AOp.check true]
  | fuel + 1, n + 1 =>
    AOp.check false ::
      ((forTrace name SPINNER_FRAMES n).1 ++
        whileTraceAux name fuel (forTrace name SPINNER_FRAMES n).2)

/-- The `while not stop_event.is_set()` loop, with `k` flag reads still
returning `False`. -/
def whileTrace (name : String) (k : Nat) : List AOp :=
  whileTraceAux name (k + 1) k

/-- The whole trace of `animate(name, stop_event)` when `k` flag reads
return `False` before the set becomes visible: the loop, then the final
cursor reset `sys.stdout.write("\r ")`. -/
def animateTrace (name : String) (k : Nat) : List AOp :=
  whileTrace name k ++ [AOp.write "\r "]

/-- The stdout writes of a trace, in order. -/
def writesOf (t : List AOp) : List String :=
  t.filterMap fun op =>
    match op with
    | AOp.write s => some s
    | _ => none

/-- The stop flag as the animation thread observes it: its `c`-th `is_set()`
call returns `true` exactly when the single `set()` has become visible
(from read index `k` on).  A `threading.Event` has no `clear()` call in
this program, so the observed value is monotone in `c`. -/
def stopFlag (k c : Nat) : Bool := decide (k ≤ c)

/-- Flag reads and sleeps of a trace (the operations that pace the loop). -/
def schedOp : AOp → Bool
  | AOp.check _ => true
  | AOp.sleepMs _ => true
  | _ => false

/-- `false` exactly when both operations are sleeps. -/
def notBothSleep : AOp → AOp → Bool
  | AOp.sleepMs _, AOp.sleepMs _ => false
  | _, _ => true

/-- `true` when the list never has two adjacent sleeps: restricted to the
scheduling operations, every sleep is separated from the next by a flag
read. -/
def noDoubleSleep : List AOp → Bool
  | [] => true
  | [_] => true
  | a :: b :: rest => notBothSleep a b && noDoubleSleep (b :: rest)

/-- `true` when the list does not begin with a sleep. -/
def headNotSleep : List AOp → Bool
  | AOp.sleepMs _ :: _ => false
  | _ => true

/-- `j` repetitions of a `False` flag read followed by one full-interval
sleep — the scheduling skeleton of `j` consecutive rendered frames. -/
def csRep : Nat → List AOp
  | 0 => []
  | j + 1 => AOp.check false :: AOp.sleepMs spinner_interval :: csRep j

/-- The control events of `run_with_animation` on the main thread, in
program order.  `α` is the wrapped function's result type, `ε` the type of
the exception it raises. -/
inductive MainEv (α ε : Type) where
  | submit_animation
  | submit_function
  | await_function
  | set_stop_event
  | join_animation
  | return_value (v : α)
  | reraise (e : ε)
deriving DecidableEq

/-- `run_with_animation(target_function, ...)` with the wrapped call's
outcome abstracted as `fres`: submit both futures, block on
`function_future.result()`, then — in the `except` branch as in the `else`
branch — `stop_event.set()`, `animation_future.result()`, and only then
`raise e` / `return result`. -/
def run_with_animation (α ε : Type) (fres : Except ε α) : List (MainEv α ε) :=
  MainEv.submit_animation :: MainEv.submit_function :: MainEv.await_function ::
    match fres with
    | Except.error e =>
      [MainEv.set_stop_event, MainEv.join_animation, MainEv.reraise e]
    | Except.ok v =>
      [MainEv.set_stop_event, MainEv.join_animation, MainEv.return_value v]

/-- The terminal event of the runner for a given outcome of the wrapped
function. -/
def finalEv (α ε : Type) : Except ε α → MainEv α ε
  | Except.ok v => MainEv.return_value v
  | Except.error e => MainEv.reraise e

/-- Recognizer for the `stop_event.set()` event. -/
def isSetStopEv {α ε : Type} : MainEv α ε → Bool
  | MainEv.set_stop_event => true
  | _ => false

/-! ### pipx discovery

`find_valid_pipx_command` probes candidate invocations with
`proc.run([*candidate, "--version"])`.  `proc.run` lives in
`algokit/core/proc.py`; only its observable outcome matters here, so the
probe is an abstract parameter `run` that either completes with an exit
code or raises `OSError` (the one exception class the source handles).
`get_python_paths()` queries the OS, so the interpreter paths it yields are
the abstract parameter `pythonPaths`. -/

/-- The result object of `proc.run`, restricted to the field the source
reads. -/
structure RunResult where
  exit_code : Int
deriving DecidableEq

/-- Outcome of one `proc.run` probe: normal completion or `OSError`. -/
inductive ProcOutcome where
  | completed (result : RunResult)
  | osError
deriving DecidableEq

/-- `get_candidate_pipx_commands()`: first bare `pipx` on PATH, then
`<python_path> -m pipx` for each interpreter yielded by
`get_python_paths()`. -/
def get_candidate_pipx_commands (pythonPaths : List String) : List (List String) :=
  ["pipx"] :: pythonPaths.map (fun python_path => [python_path, "-m", "pipx"])

/-- A candidate is accepted exactly when its `--version` probe completes
with exit code 0. -/
def probeOk (run : List String → ProcOutcome) (pipx_command : List String) : Bool :=
  match run (pipx_command ++ ["--version"]) with
  | ProcOutcome.completed r => r.exit_code == 0
  | ProcOutcome.osError => false

/-- The `for pipx_command in get_candidate_pipx_commands()` loop:
`OSError` → `pass` (next candidate); completion with exit code 0 →
return the candidate; otherwise next candidate; exhaustion →
`click.ClickException(error_message)`. -/
def findValidAux (run : List String → ProcOutcome) (error_message : String) :
    List (List String) → Except PyErr (List String)
  | [] => Except.error (PyErr.clickException error_message)
  | pipx_command :: rest =>
    match run (pipx_command ++ ["--version"]) with
    | ProcOutcome.osError => findValidAux run error_message rest
    | ProcOutcome.completed r =>
      if r.exit_code == 0 then Except.ok pipx_command
      else findValidAux run error_message rest

/-- `find_valid_pipx_command(error_message)`. -/
def find_valid_pipx_command (run : List String → ProcOutcome)
    (pythonPaths : List String) (error_message : String) :
    Except PyErr (List String) :=
  findValidAux run error_message (get_candidate_pipx_commands pythonPaths)

/-! ### Command resolution

`resolve_command_path` consults `Path(cmd).name` and `shutil.which`.  The
code runs `pathlib` for the current platform; the POSIX behaviour is
embedded (`PurePosixPath` parsing: split on `/`, drop empty and `"."`
components).  `shutil.which` is the OS search-path lookup and is abstracted
as the parameter `whichFn`. -/

/-- `PurePosixPath(s).name`: the final path component after dropping empty
and `"."` components, or `""` when none remain (so `""`, `"."`, `"/"` all
have name `""`, while `".."` has name `".."`). -/
def posixName (s : String) : String :=
  String.mk
    ((((splitOnChar '/' s.data).filter
      (fun g => decide (g ≠ [] ∧ g ≠ ['.']))).getLast?).getD [])

/-- The spec's wording for the short-circuit test: the token contains a
path separator. -/
def containsPathSep (s : String) : Bool := s.data.contains '/'

/-- The single-quote character (written by its code point). -/
def squoteChar : Char := Char.ofNat 39

/-- A token wrapped in single quotes, as the f-string
`f"... '{cmd}' ..."` renders it. -/
def quoteTok (s : String) : String :=
  String.mk (squoteChar :: (s.data ++ [squoteChar]))

/-- `resolve_command_path(command)`.  `cmd, *args = command` raises
`ValueError` on an empty list; `Path(cmd).name != cmd` returns the command
unchanged; otherwise `shutil.which(cmd)` is consulted, `None` raising
`click.ClickException(f"Failed to resolve command path, ...")` naming the
token. -/
def resolve_command_path (whichFn : String → Option String)
    (command : List String) : Except PyErr (List String) :=
  match command with
  | [] =>
    Except.error
      (PyErr.valueError "not enough values to unpack (expected at least 1, got 0)")
  | cmd :: args =>
    if posixName cmd ≠ cmd then Except.ok (cmd :: args)
    else
      match whichFn cmd with
      | some resolved_cmd => Except.ok (resolved_cmd :: args)
      | none =>
        Except.error (PyErr.clickException
          ("Failed to resolve command path, " ++ quoteTok cmd ++ " wasn't found"))

/-! ### Shell splitting (`shlex.split`, the POSIX branch of
`split_command_string`; the Windows `mslex` branch is not modelled). -/

/-- Lexer mode of `shlex` in POSIX mode with `whitespace_split=True`:
outside quotes, inside `'...'`, inside `"..."`, after a backslash outside
quotes, after a backslash inside `"..."`. -/
inductive SMode where
  | normal
  | squote
  | dquote
  | escNormal
  | escDquote
deriving DecidableEq

/-- `shlex.whitespace`. -/
def isShlexWs (c : Char) : Bool :=
  (c == ' ') || (c == '\t') || (c == '\r') || (c == '\n')

/-- `shlex` in POSIX mode, `whitespace_split=True`: `curTok = some t` means
a token (possibly empty, from quotes) is in progress.  Unbalanced quotes
raise `ValueError("No closing quotation")`; a trailing escape raises
`ValueError("No escaped character")`.  Inside double quotes a backslash
escapes only `\` and `"` and is otherwise kept literally. -/
def shlexSplitAux : SMode → Option (List Char) → List Char →
    Except PyErr (List (List Char))
  | SMode.normal, curTok, [] =>
    Except.ok
      (match curTok with
       | some t => [t]
       | none => [])
  | SMode.normal, curTok, c :: rest =>
    if isShlexWs c then
      match curTok with
      | some t => (fun ts => t :: ts) <$> shlexSplitAux SMode.normal none rest
      | none => shlexSplitAux SMode.normal none rest
    else if c = squoteChar then
      shlexSplitAux SMode.squote (some (curTok.getD [])) rest
    else if c = '"' then
      shlexSplitAux SMode.dquote (some (curTok.getD [])) rest
    else if c = '\\' then
      shlexSplitAux SMode.escNormal (some (curTok.getD [])) rest
    else shlexSplitAux SMode.normal (some (curTok.getD [] ++ [c])) rest
  | SMode.squote, _, [] => Except.error (PyErr.valueError "No closing quotation")
  | SMode.squote, curTok, c :: rest =>
    if c = squoteChar then shlexSplitAux SMode.normal curTok rest
    else shlexSplitAux SMode.squote (some (curTok.getD [] ++ [c])) rest
  | SMode.dquote, _, [] => Except.error (PyErr.valueError "No closing quotation")
  | SMode.dquote, curTok, c :: rest =>
    if c = '"' then shlexSplitAux SMode.normal curTok rest
    else if c = '\\' then shlexSplitAux SMode.escDquote curTok rest
    else shlexSplitAux SMode.dquote (some (curTok.getD [] ++ [c])) rest
  | SMode.escNormal, _, [] => Except.error (PyErr.valueError "No escaped character")
  | SMode.escNormal, curTok, c :: rest =>
    shlexSplitAux SMode.normal (some (curTok.getD [] ++ [c])) rest
  | SMode.escDquote, _, [] => Except.error (PyErr.valueError "No escaped character")
  | SMode.escDquote, curTok, c :: rest =>
    if c = '"' ∨ c = '\\' then
      shlexSplitAux SMode.dquote (some (curTok.getD [] ++ [c])) rest
    else shlexSplitAux SMode.dquote (some (curTok.getD [] ++ ['\\', c])) rest

/-- `split_command_string(command)` on a POSIX platform: `shlex.split`. -/
def split_command_string (command : String) : Except PyErr (List String) :=
  (fun ts => ts.map String.mk) <$> shlexSplitAux SMode.normal none command.data

/-- `split_and_resolve_command_strings(commands)`: the list comprehension
`[resolve_command_path(split_command_string(raw)) for raw in commands]` —
elements are processed left to right and the first exception aborts the
whole call. -/
def split_and_resolve_command_strings (whichFn : String → Option String) :
    List String → Except PyErr (List (List String))
  | [] => Except.ok []
  | raw_command :: rest =>
    match split_command_string raw_command with
    | Except.error e => Except.error e
    | Except.ok toks =>
      match resolve_command_path whichFn toks with
      | Except.error e => Except.error e
      | Except.ok resolved =>
        match split_and_resolve_command_strings whichFn rest with
        | Except.error e => Except.error e
        | Except.ok others => Except.ok (resolved :: others)

/-! ### Environment file loading

`load_env_file` consults the file system (`Path.is_file`, `Path.exists`)
and delegates parsing to `dotenv.dotenv_values`; both are abstract
parameters.  `path / ".env"` is modelled as appending `"/.env"` (POSIX
join for a directory path). -/

/-- The file-system facts `load_env_file` reads. -/
structure FileSystem where
  is_file : String → Bool
  pathExists : String → Bool

/-- `load_env_file(path)`: a file path is used directly, anything else is
treated as a directory and resolved to `<path>/.env`; the parsed mapping is
returned when the resolved file exists, `{}` otherwise.  A mapping value
`none` is dotenv's absent-value marker. -/
def load_env_file (fs : FileSystem)
    (dotenv_values : String → List (String × Option String))
    (path : String) : List (String × Option String) :=
  let env_path := if fs.is_file path then path else path ++ "/.env"
  if fs.pathExists env_path then dotenv_values env_path else []

theorem tupleGe_iff_not_lex (xs ys : List Nat) :
    tupleGe xs ys = true ↔ ¬ List.Lex (fun m n : Nat => m < n) xs ys := by
  induction xs generalizing ys with
  | nil =>
    cases ys with
    | nil =>
      simp only [tupleGe]
      constructor
      · intro _ h
        cases h
      · intro _
        trivial
    | cons b bs =>
      simp only [tupleGe]
      constructor
      · intro h
        cases h
      · intro h
        exact absurd List.Lex.nil h
  | cons a as_ ih =>
    cases ys with
    | nil =>
      simp only [tupleGe]
      constructor
      · intro _ h
        cases h
      · intro _
        trivial
    | cons b bs =>
      simp only [tupleGe]
      by_cases hba : b < a
      · simp only [if_pos hba]
        constructor
        · intro _ h
          cases h with
          | cons h' => exact absurd hba (Nat.lt_asymm (by omega))
          | rel h' => omega
        · intro _
          trivial
      · by_cases hab : a < b
        · simp only [if_neg hba, if_pos hab]
          constructor
          · intro h
            cases h
          · intro h
            exact absurd (List.Lex.rel hab) h
        · have hab' : a = b := by omega
          subst hab'
          simp only [if_neg hba, if_neg hab]
          rw [ih bs]
          constructor
          · intro h hl
            cases hl with
            | cons h' => exact h h'
            | rel h' => omega
          · intro h hl
            exact h (List.Lex.cons hl)

theorem lex_of_strict_extension (xs zs : List Nat) (z : Nat) :
    List.Lex (fun m n : Nat => m < n) xs (xs ++ z :: zs) := by
  induction xs with
  | nil => exact List.Lex.nil
  | cons a as_ ih => exact List.Lex.cons ih

/-! ## Theorems -/

/-- Evaluation of `is_minimum_version` once both version tuples parse. -/
theorem is_minimum_version_eq (a b : String) (xs ys : List Nat)
    (ha : versionTuple a = some xs) (hb : versionTuple b = some ys) :
    is_minimum_version a b = some (tupleGe xs ys) := by
  simp [is_minimum_version, ha, hb]

/-- A list never precedes itself lexicographically once extended. -/
theorem not_lex_self_extension (ys zs : List Nat) (z : Nat) :
    ¬ List.Lex (fun m n : Nat => m < n) (ys ++ z :: zs) ys := by
  induction ys with
  | nil => intro h; cases h
  | cons a ys ih =>
    intro h
    cases h with
    | cons h' => exact ih h'
    | rel h' => exact absurd h' (lt_irrefl a)

/-- C6: for dotted version strings whose segments are all numeric and of
equal arity, `is_minimum_version system minimum` returns true exactly when
the tuple of the system version's integer segments is ≥ the minimum's
under lexicographic tuple order; in particular
`is_minimum_version "3.10.1" "3.9.0"` returns true. -/
theorem is_minimum_version_lex_spec (a b : String) (xs ys : List Nat)
    (ha : versionTuple a = some xs) (hb : versionTuple b = some ys)
    (hlen : xs.length = ys.length) :
    (is_minimum_version a b = some true ↔
      ¬ List.Lex (fun m n : Nat => m < n) xs ys) ∧
    is_minimum_version "3.10.1" "3.9.0" = some true := by
  refine ⟨?_, by decide⟩
  rw [is_minimum_version_eq a b xs ys ha hb]
  simp only [Option.some.injEq]
  constructor
  · intro h
    exact (tupleGe_iff_not_lex xs ys).mp h
  · intro h
    exact (tupleGe_iff_not_lex xs ys).mpr h

/-- Witness for C6 at `system = "3.10.1"`, `minimum = "3.9.0"`. -/
theorem is_minimum_version_lex_spec_witness :
    versionTuple "3.10.1" = some [3, 10, 1] ∧
    versionTuple "3.9.0" = some [3, 9, 0] ∧
    (is_minimum_version "3.10.1" "3.9.0" = some true ↔
      ¬ List.Lex (fun m n : Nat => m < n) [3, 10, 1] [3, 9, 0]) := by
  refine ⟨by decide, by decide, ?_⟩
  exact (is_minimum_version_lex_spec "3.10.1" "3.9.0" [3, 10, 1] [3, 9, 0]
    (by decide) (by decide) (by decide)).1

/-- C9: for all-numeric version strings of differing arity,
`is_minimum_version` is total (no `int` or comparison error is raised) and
compares by Python tuple order, under which a strict prefix is strictly
smaller: `is_minimum_version "3.10" "3.10.0" = false` and
`is_minimum_version "3.10.0" "3.10" = true`. -/
theorem is_minimum_version_unequal_arity_spec (a b : String) (xs ys : List Nat)
    (ha : versionTuple a = some xs) (hb : versionTuple b = some ys)
    (hlen : xs.length ≠ ys.length) :
    (∃ res : Bool, is_minimum_version a b = some res) ∧
    (is_minimum_version a b = some true ↔
      ¬ List.Lex (fun m n : Nat => m < n) xs ys) ∧
    (∀ z zs, ys = xs ++ z :: zs → is_minimum_version a b = some false) ∧
    (∀ z zs, xs = ys ++ z :: zs → is_minimum_version a b = some true) ∧
    is_minimum_version "3.10" "3.10.0" = some false ∧
    is_minimum_version "3.10.0" "3.10" = some true := by
  have heval := is_minimum_version_eq a b xs ys ha hb
  refine ⟨⟨tupleGe xs ys, heval⟩, ?_, ?_, ?_, by decide, by decide⟩
  · rw [heval]
    simp only [Option.some.injEq]
    constructor
    · intro h
      exact (tupleGe_iff_not_lex xs ys).mp h
    · intro h
      exact (tupleGe_iff_not_lex xs ys).mpr h
  · intro z zs hys
    have hlex : List.Lex (fun m n : Nat => m < n) xs ys := by
      rw [hys]; exact lex_of_strict_extension xs zs z
    have hf : tupleGe xs ys = false := by
      cases hv : tupleGe xs ys with
      | false => rfl
      | true => exact absurd hlex ((tupleGe_iff_not_lex xs ys).mp hv)
    rw [heval, hf]
  · intro z zs hxs
    have hnl : ¬ List.Lex (fun m n : Nat => m < n) xs ys := by
      rw [hxs]; exact not_lex_self_extension ys zs z
    rw [heval, (tupleGe_iff_not_lex xs ys).mpr hnl]

/-- Witness for C9 at `"3.10"` versus `"3.10.0"`. -/
theorem is_minimum_version_unequal_arity_spec_witness :
    versionTuple "3.10" = some [3, 10] ∧
    versionTuple "3.10.0" = some [3, 10, 0] ∧
    is_minimum_version "3.10" "3.10.0" = some false := by
  refine ⟨by decide, by decide, ?_⟩
  exact (is_minimum_version_unequal_arity_spec "3.10" "3.10.0" [3, 10] [3, 10, 0]
    (by decide) (by decide) (by decide)).2.2.1 0 [] (by decide)

/-- C8: `load_env_file` uses a file path directly and resolves anything
else (in particular a directory) to `<dir>/.env`; it returns the parsed
mapping when the resolved file exists and the empty mapping when it does
not. -/
theorem load_env_file_spec (fs : FileSystem)
    (dotenv_values : String → List (String × Option String)) (path : String) :
    (fs.is_file path = true →
      load_env_file fs dotenv_values path =
        if fs.pathExists path then dotenv_values path else []) ∧
    (fs.is_file path = false →
      load_env_file fs dotenv_values path =
        if fs.pathExists (path ++ "/.env") then dotenv_values (path ++ "/.env")
        else []) ∧
    (fs.is_file path = false → fs.pathExists (path ++ "/.env") = false →
      load_env_file fs dotenv_values path = []) := by
  refine ⟨?_, ?_, ?_⟩
  · intro h
    simp [load_env_file, h]
  · intro h
    simp [load_env_file, h]
  · intro h h2
    simp [load_env_file, h, h2]

/-- Witness for C8: a directory `proj` containing `.env` with `KEY=value`
yields the parsed mapping, and a directory with no `.env` yields the empty
mapping. -/
theorem load_env_file_spec_witness :
    load_env_file
        ⟨fun p => p == "proj/.env", fun p => p == "proj/.env"⟩
        (fun p => if p == "proj/.env" then [("KEY", some "value")] else [])
        "proj" = [("KEY", some "value")] ∧
    load_env_file ⟨fun _ => false, fun _ => false⟩ (fun _ => []) "proj" = [] := by
  constructor
  · have h := (load_env_file_spec
      ⟨fun p => p == "proj/.env", fun p => p == "proj/.env"⟩
      (fun p => if p == "proj/.env" then [("KEY", some "value")] else [])
      "proj").2.1 (by decide)
    simpa using h
  · have h := (load_env_file_spec ⟨fun _ => false, fun _ => false⟩
      (fun _ => []) "proj").2.2 rfl rfl
    exact h

/-- `splitOnChar` never returns the empty list of groups. -/
theorem splitOnChar_ne_nil (sep : Char) (l : List Char) :
    splitOnChar sep l ≠ [] := by
  cases l with
  | nil => simp [splitOnChar]
  | cons c rest =>
    simp only [splitOnChar]
    by_cases h : c = sep
    · simp [h]
    · rw [if_neg h]
      cases hrec : splitOnChar sep rest <;> simp

/-- No group produced by `splitOnChar` contains the separator. -/
theorem splitOnChar_not_mem (sep : Char) :
    ∀ (l g : List Char), g ∈ splitOnChar sep l → sep ∉ g := by
  intro l
  induction l with
  | nil =>
    intro g hg
    simp [splitOnChar] at hg
    subst hg
    simp
  | cons c rest ih =>
    intro g hg
    simp only [splitOnChar] at hg
    by_cases h : c = sep
    · rw [if_pos h] at hg
      rcases List.mem_cons.mp hg with h1 | h2
      · subst h1; simp
      · exact ih g h2
    · rw [if_neg h] at hg
      cases hrec : splitOnChar sep rest with
      | nil => exact absurd hrec (splitOnChar_ne_nil sep rest)
      | cons g0 gs =>
        rw [hrec] at hg
        rcases List.mem_cons.mp hg with h1 | h2
        · subst h1
          intro hmem
          rcases List.mem_cons.mp hmem with h3 | h4
          · exact h h3.symm
          · exact ih g0 (by rw [hrec]; exact List.mem_cons_self g0 gs) h4
        · exact ih g (by rw [hrec]; exact List.mem_cons_of_mem g0 h2)

/-- A token containing a path separator is changed by taking its final
path component, so `Path(cmd).name != cmd` holds for it. -/
theorem posixName_ne_of_sep (cmd : String) (h : containsPathSep cmd = true) :
    posixName cmd ≠ cmd := by
  intro heq
  have hsep : '/' ∈ cmd.data := by
    simpa [containsPathSep, List.contains] using h
  have hdata : cmd.data =
      (((splitOnChar '/' cmd.data).filter
        (fun g => decide (g ≠ [] ∧ g ≠ ['.']))).getLast?).getD [] := by
    conv_lhs => rw [← heq]
    rfl
  cases hg : (((splitOnChar '/' cmd.data).filter
      (fun g => decide (g ≠ [] ∧ g ≠ ['.']))).getLast?) with
  | none =>
    rw [hg] at hdata
    simp at hdata
    rw [hdata] at hsep
    simp at hsep
  | some g =>
    rw [hg] at hdata
    simp at hdata
    have hmem : g ∈ (splitOnChar '/' cmd.data).filter
        (fun g => decide (g ≠ [] ∧ g ≠ ['.'])) :=
      List.mem_of_getLast?_eq_some hg
    have hmem2 : g ∈ splitOnChar '/' cmd.data := List.mem_of_mem_filter hmem
    have hnot : '/' ∉ g := splitOnChar_not_mem '/' cmd.data g hmem2
    rw [hdata] at hsep
    exact hnot hsep

/-- C4 (amended): for a non-empty command list, `resolve_command_path`
returns the list unchanged whenever stripping the first element to its
final path component changes it — which covers every element containing a
path separator, but also the bare `"."`; when the element is a pure final
component, it returns the search-path match followed by the original
arguments, and raises a distinct resolution-failed `ClickException` naming
the original token when the search-path lookup finds nothing. -/
theorem resolve_command_path_spec (whichFn : String → Option String)
    (cmd : String) (args : List String) :
    (containsPathSep cmd = true → posixName cmd ≠ cmd) ∧
    (posixName cmd ≠ cmd →
      resolve_command_path whichFn (cmd :: args) = Except.ok (cmd :: args)) ∧
    (∀ p, posixName cmd = cmd → whichFn cmd = some p →
      resolve_command_path whichFn (cmd :: args) = Except.ok (p :: args)) ∧
    (posixName cmd = cmd → whichFn cmd = none →
      resolve_command_path whichFn (cmd :: args) =
        Except.error (PyErr.clickException
          ("Failed to resolve command path, " ++ quoteTok cmd ++ " wasn't found"))) := by
  refine ⟨posixName_ne_of_sep cmd, ?_, ?_, ?_⟩
  · intro h
    simp [resolve_command_path, h]
  · intro p h hw
    simp [resolve_command_path, h, hw]
  · intro h hw
    simp [resolve_command_path, h, hw]

/-- Witness for C4 at `cmd = "zzz"` with an empty search path: the
resolution-failed error names the token. -/
theorem resolve_command_path_spec_witness :
    posixName "zzz" = "zzz" ∧
    (fun _ : String => (none : Option String)) "zzz" = none ∧
    resolve_command_path (fun _ => none) ["zzz"] =
      Except.error (PyErr.clickException
        ("Failed to resolve command path, " ++ quoteTok "zzz" ++ " wasn't found")) := by
  refine ⟨by decide, rfl, ?_⟩
  exact (resolve_command_path_spec (fun _ => none) "zzz" []).2.2.2 (by decide) rfl

/-- C4 counterexample: `"."` contains no path separator, the search path
has no match for it, and yet `resolve_command_path` returns it unchanged
instead of raising the resolution-failed error the claim requires for
separator-free tokens without a search-path match (`Path(".").name` is
`""`, not `"."`, so the unchanged-return branch fires). -/
theorem resolve_command_path_claim_cex :
    containsPathSep "." = false ∧
    (fun _ : String => (none : Option String)) "." = none ∧
    resolve_command_path (fun _ => none) ["."] = Except.ok ["."] := by
  refine ⟨by decide, rfl, ?_⟩
  have h : posixName "." ≠ "." := by decide
  simp [resolve_command_path, h]

/-- The candidate loop of `find_valid_pipx_command` returns the first
candidate accepted by its probe, as a `find?`. -/
theorem findValidAux_eq_find? (run : List String → ProcOutcome) (msg : String) :
    ∀ cs : List (List String),
      findValidAux run msg cs =
        match cs.find? (probeOk run) with
        | some c => Except.ok c
        | none => Except.error (PyErr.clickException msg) := by
  intro cs
  induction cs with
  | nil => rfl
  | cons a rest ih =>
    cases hr : run (a ++ ["--version"]) with
    | completed r =>
      have hp : probeOk run a = (r.exit_code == 0) := by simp [probeOk, hr]
      cases h0 : (r.exit_code == 0) with
      | true =>
        simp only [findValidAux, hr, h0, List.find?, hp, if_true]
      | false =>
        simp only [findValidAux, hr, h0, List.find?, hp, if_false]
        exact ih
    | osError =>
      have hp : probeOk run a = false := by simp [probeOk, hr]
      simp only [findValidAux, hr, List.find?, hp]
      exact ih

/-- C5: `find_valid_pipx_command` tries the bare `pipx` command first and
then `<python_path> -m pipx` for each candidate interpreter, returning the
first candidate whose `--version` probe exits with status 0; a candidate
whose probe raises `OSError` is skipped without aborting discovery; when
every candidate fails it raises a `ClickException` carrying the
caller-supplied message. -/
theorem find_valid_pipx_command_spec (run : List String → ProcOutcome)
    (pythonPaths : List String) (error_message : String) (c : List String) :
    (get_candidate_pipx_commands pythonPaths =
      ["pipx"] :: pythonPaths.map (fun python_path => [python_path, "-m", "pipx"])) ∧
    (find_valid_pipx_command run pythonPaths error_message = Except.ok c ↔
      probeOk run c = true ∧
      ∃ pre post, get_candidate_pipx_commands pythonPaths = pre ++ c :: post ∧
        ∀ d ∈ pre, probeOk run d = false) ∧
    (find_valid_pipx_command run pythonPaths error_message =
        Except.error (PyErr.clickException error_message) ↔
      ∀ d ∈ get_candidate_pipx_commands pythonPaths, probeOk run d = false) ∧
    (∀ cand rest, run (cand ++ ["--version"]) = ProcOutcome.osError →
      findValidAux run error_message (cand :: rest) =
        findValidAux run error_message rest) := by
  refine ⟨rfl, ?_, ?_, ?_⟩
  · rw [find_valid_pipx_command, findValidAux_eq_find?]
    cases hf : (get_candidate_pipx_commands pythonPaths).find? (probeOk run) with
    | some c0 =>
      simp only [Except.ok.injEq]
      constructor
      · intro h
        subst h
        obtain ⟨hp, pre, post, heq, hall⟩ := List.find?_eq_some.mp hf
        exact ⟨hp, pre, post, heq, fun d hd => by simpa using hall d hd⟩
      · intro ⟨hp, pre, post, heq, hall⟩
        have : (get_candidate_pipx_commands pythonPaths).find? (probeOk run) = some c := by
          rw [List.find?_eq_some]
          exact ⟨hp, pre, post, heq, fun d hd => by simpa using hall d hd⟩
        rw [hf] at this
        exact Option.some.inj this
    | none =>
      constructor
      · intro h
        exact absurd h (by simp)
      · intro ⟨hp, pre, post, heq, hall⟩
        have hmem : c ∈ get_candidate_pipx_commands pythonPaths := by
          rw [heq]
          exact List.mem_append_right pre (List.mem_cons_self c post)
        have := List.find?_eq_none.mp hf c hmem
        simp [hp] at this
  · rw [find_valid_pipx_command, findValidAux_eq_find?]
    cases hf : (get_candidate_pipx_commands pythonPaths).find? (probeOk run) with
    | some c0 =>
      constructor
      · intro h
        exact absurd h (by simp)
      · intro hall
        have hp := List.find?_some hf
        have hmem := List.mem_of_find?_eq_some hf
        rw [hall c0 hmem] at hp
        cases hp
    | none =>
      constructor
      · intro _ d hd
        have := List.find?_eq_none.mp hf d hd
        simpa using this
      · intro _
        rfl
  · intro cand rest hr
    simp [findValidAux, hr]

/-- Witness for C5: the bare `pipx` probe raises `OSError`, the first
interpreter candidate probes clean, and discovery returns it. -/
theorem find_valid_pipx_command_spec_witness :
    find_valid_pipx_command
        (fun cmd => if cmd = ["pipx", "--version"] then ProcOutcome.osError
          else ProcOutcome.completed ⟨0⟩)
        ["/usr/bin/python3"] "pipx not found" =
      Except.ok ["/usr/bin/python3", "-m", "pipx"] := by
  have h := (find_valid_pipx_command_spec
    (fun cmd => if cmd = ["pipx", "--version"] then ProcOutcome.osError
      else ProcOutcome.completed ⟨0⟩)
    ["/usr/bin/python3"] "pipx not found" ["/usr/bin/python3", "-m", "pipx"]).2.1
  apply h.mpr
  refine ⟨by decide, [["pipx"]], [], by decide, ?_⟩
  intro d hd
  simp at hd
  subst hd
  decide

/-- Evaluation of the comprehension when splitting an element fails. -/
theorem sar_cons_split_error (whichFn : String → Option String)
    (r : String) (rest : List String) (e : PyErr)
    (h : split_command_string r = Except.error e) :
    split_and_resolve_command_strings whichFn (r :: rest) = Except.error e := by
  simp only [split_and_resolve_command_strings, h]

/-- Evaluation of the comprehension when resolving an element fails. -/
theorem sar_cons_resolve_error (whichFn : String → Option String)
    (r : String) (rest : List String) (toks : List String) (e : PyErr)
    (h1 : split_command_string r = Except.ok toks)
    (h2 : resolve_command_path whichFn toks = Except.error e) :
    split_and_resolve_command_strings whichFn (r :: rest) = Except.error e := by
  simp only [split_and_resolve_command_strings, h1, h2]

/-- Evaluation of the comprehension when the head element succeeds. -/
theorem sar_cons_all_ok (whichFn : String → Option String)
    (r : String) (rest : List String) (toks v : List String)
    (h1 : split_command_string r = Except.ok toks)
    (h2 : resolve_command_path whichFn toks = Except.ok v) :
    split_and_resolve_command_strings whichFn (r :: rest) =
      match split_and_resolve_command_strings whichFn rest with
      | Except.error e => Except.error e
      | Except.ok others => Except.ok (v :: others) := by
  simp only [split_and_resolve_command_strings, h1, h2]

/-- C10 (amended): `resolve_command_path` applied to the empty list fails
with the unpacking `ValueError`, not the resolution-failed error; so
`split_and_resolve_command_strings` raises this unpacking error for an
input list containing a string that splits into zero tokens (such as the
empty or all-whitespace string), provided every earlier element splits and
resolves successfully (the comprehension evaluates left to right and an
earlier failure raises that earlier error instead); and under the
precondition that every command string splits into at least one token the
unpacking never fails — every outcome is a success or a resolution-failed
`ClickException`. -/
theorem split_and_resolve_unpack_spec (whichFn : String → Option String)
    (pre : List String) (s : String) (post : List String)
    (resolved : List (List String))
    (hpre : split_and_resolve_command_strings whichFn pre = Except.ok resolved)
    (hs : split_command_string s = Except.ok []) :
    (resolve_command_path whichFn [] =
      Except.error (PyErr.valueError
        "not enough values to unpack (expected at least 1, got 0)")) ∧
    (split_and_resolve_command_strings whichFn (pre ++ s :: post) =
      Except.error (PyErr.valueError
        "not enough values to unpack (expected at least 1, got 0)")) ∧
    (∀ cs : List String,
      (∀ r ∈ cs, ∃ t ts, split_command_string r = Except.ok (t :: ts)) →
      (∃ out, split_and_resolve_command_strings whichFn cs = Except.ok out) ∨
      (∃ m, split_and_resolve_command_strings whichFn cs =
        Except.error (PyErr.clickException m))) := by
  refine ⟨rfl, ?_, ?_⟩
  · induction pre generalizing resolved with
    | nil =>
      simp only [List.nil_append, split_and_resolve_command_strings, hs]
      rfl
    | cons r pre ih =>
      rw [List.cons_append]
      cases hsp : split_command_string r with
      | error e =>
        rw [sar_cons_split_error whichFn r pre e hsp] at hpre
        exact Except.noConfusion hpre
      | ok toks =>
        cases hres : resolve_command_path whichFn toks with
        | error e =>
          rw [sar_cons_resolve_error whichFn r pre toks e hsp hres] at hpre
          exact Except.noConfusion hpre
        | ok v =>
          rw [sar_cons_all_ok whichFn r pre toks v hsp hres] at hpre
          rw [sar_cons_all_ok whichFn r (pre ++ s :: post) toks v hsp hres]
          cases hrest : split_and_resolve_command_strings whichFn pre with
          | error e =>
            rw [hrest] at hpre
            exact Except.noConfusion hpre
          | ok others =>
            rw [ih others hrest]
  · intro cs hall
    induction cs with
    | nil => exact Or.inl ⟨[], rfl⟩
    | cons r rest ih =>
      obtain ⟨t, ts, hsp⟩ := hall r (List.mem_cons_self r rest)
      have hallrest : ∀ x ∈ rest, ∃ t ts, split_command_string x = Except.ok (t :: ts) :=
        fun x hx => hall x (List.mem_cons_of_mem r hx)
      simp only [split_and_resolve_command_strings, hsp]
      have hres : (∃ v, resolve_command_path whichFn (t :: ts) = Except.ok v) ∨
          (∃ m, resolve_command_path whichFn (t :: ts) =
            Except.error (PyErr.clickException m)) := by
        simp only [resolve_command_path]
        by_cases h : posixName t ≠ t
        · exact Or.inl ⟨t :: ts, by simp [h]⟩
        · cases hw : whichFn t with
          | some p => exact Or.inl ⟨p :: ts, by simp [h, hw]⟩
          | none =>
            refine Or.inr ⟨"Failed to resolve command path, " ++ quoteTok t ++ " wasn't found", ?_⟩
            simp [h, hw]
      rcases hres with ⟨v, hv⟩ | ⟨m, hm⟩
      · rw [hv]
        rcases ih hallrest with ⟨out, hout⟩ | ⟨m, hm⟩
        · rw [hout]; exact Or.inl ⟨v :: out, rfl⟩
        · rw [hm]; exact Or.inr ⟨m, rfl⟩
      · rw [hm]
        exact Or.inr ⟨m, rfl⟩

/-- Witness for C10: `["ls", "  "]` with `"ls"` resolving cleanly raises
the unpacking `ValueError` on the all-whitespace element. -/
theorem split_and_resolve_unpack_spec_witness :
    split_and_resolve_command_strings (fun _ => some "/bin/ls") ["ls"] =
      Except.ok [["/bin/ls"]] ∧
    split_command_string "  " = Except.ok [] ∧
    split_and_resolve_command_strings (fun _ => some "/bin/ls") ["ls", "  "] =
      Except.error (PyErr.valueError
        "not enough values to unpack (expected at least 1, got 0)") := by
  refine ⟨rfl, rfl, ?_⟩
  exact (split_and_resolve_unpack_spec (fun _ => some "/bin/ls")
    ["ls"] "  " [] [["/bin/ls"]] rfl rfl).2.1

/-- C10 counterexample: the input list `["nope", ""]` contains the empty
string, which splits into zero tokens, yet with an empty search path the
call raises the resolution-failed `ClickException` for the earlier element
`"nope"`, not the unpacking `ValueError` the claim promises for every such
list. -/
theorem split_and_resolve_claim_cex :
    split_command_string "" = Except.ok [] ∧
    split_and_resolve_command_strings (fun _ => none) ["nope", ""] =
      Except.error (PyErr.clickException
        ("Failed to resolve command path, " ++ quoteTok "nope" ++ " wasn't found")) ∧
    split_and_resolve_command_strings (fun _ => none) ["nope", ""] ≠
      Except.error (PyErr.valueError
        "not enough values to unpack (expected at least 1, got 0)") := by
  have h2 : split_and_resolve_command_strings (fun _ => none) ["nope", ""] =
      Except.error (PyErr.clickException
        ("Failed to resolve command path, " ++ quoteTok "nope" ++ " wasn't found")) := by
    rfl
  refine ⟨rfl, h2, ?_⟩
  rw [h2]
  intro h
  exact PyErr.noConfusion (Except.error.inj h)

/-- The spinner's writes end with the cursor reset `"\r "` for every
schedule of the stop signal. -/
theorem writesOf_animate_last (name : String) (k : Nat) :
    (writesOf (animateTrace name k)).getLast? = some "\r " := by
  rw [animateTrace, writesOf, List.filterMap_append]
  have h2 : List.filterMap
      (fun op => match op with | AOp.write s => some s | _ => none)
      [AOp.write "\r "] = ["\r "] := rfl
  rw [h2, List.getLast?_concat]

/-- C1: when the wrapped operation raises `e`, `run_with_animation` first
sets the stop event, then joins the animation future, and only then
re-raises; the re-raised error is exactly `e` (never swallowed — no value
is returned — and never wrapped — no other error is raised), and the
re-raise is the runner's final action. -/
theorem run_with_animation_error_spec (α ε : Type) (e : ε) :
    (∃ l1 l2 l3 : List (MainEv α ε),
      run_with_animation α ε (Except.error e) =
        l1 ++ MainEv.set_stop_event ::
          (l2 ++ MainEv.join_animation :: (l3 ++ [MainEv.reraise e]))) ∧
    (∀ v : α, MainEv.return_value v ∉ run_with_animation α ε (Except.error e)) ∧
    (∀ e' : ε, MainEv.reraise e' ∈ run_with_animation α ε (Except.error e) → e' = e) ∧
    (run_with_animation α ε (Except.error e)).getLast? = some (MainEv.reraise e) := by
  refine ⟨⟨[MainEv.submit_animation, MainEv.submit_function, MainEv.await_function],
    [], [], rfl⟩, ?_, ?_, rfl⟩
  · intro v
    simp [run_with_animation]
  · intro e' h
    simp only [run_with_animation, List.mem_cons, List.mem_singleton] at h
    rcases h with h | h | h | h | h | h | h
    · exact MainEv.noConfusion h
    · exact MainEv.noConfusion h
    · exact MainEv.noConfusion h
    · exact MainEv.noConfusion h
    · exact MainEv.noConfusion h
    · exact MainEv.reraise.inj h
    · exact absurd h (List.not_mem_nil _)

/-- C2: on both exit paths — value returned or error re-raised — the
runner signals the stop event and joins the animation future before its
terminal event, and the spinner's final terminal write is the cursor-reset
string `"\r "` under every stop-signal schedule. -/
theorem run_with_animation_cleanup_spec (α ε : Type) (fres : Except ε α)
    (name : String) (k : Nat) :
    (∃ l1 : List (MainEv α ε),
      run_with_animation α ε fres =
        l1 ++ [MainEv.set_stop_event, MainEv.join_animation, finalEv α ε fres]) ∧
    (∀ v : α, fres = Except.ok v → finalEv α ε fres = MainEv.return_value v) ∧
    (∀ e : ε, fres = Except.error e → finalEv α ε fres = MainEv.reraise e) ∧
    (writesOf (animateTrace name k)).getLast? = some "\r " := by
  refine ⟨?_, ?_, ?_, writesOf_animate_last name k⟩
  · refine ⟨[MainEv.submit_animation, MainEv.submit_function, MainEv.await_function], ?_⟩
    cases fres <;> rfl
  · intro v hv
    subst hv
    rfl
  · intro e he
    subst he
    rfl

/-- The frame loop consumes one budget unit per rendered frame. -/
theorem forTrace_snd (name : String) (fs : List String) :
    ∀ n, (forTrace name fs n).2 = n - fs.length := by
  induction fs with
  | nil => intro n; simp [forTrace]
  | cons f fs ih =>
    intro n
    cases n with
    | zero => simp [forTrace]
    | succ n =>
      show (forTrace name fs n).2 = n + 1 - (fs.length + 1)
      rw [ih n]
      omega

/-- Every sleep in the frame loop lasts exactly one spinner interval. -/
theorem forTrace_sleep (name : String) (fs : List String) :
    ∀ n d, AOp.sleepMs d ∈ (forTrace name fs n).1 → d = spinner_interval := by
  induction fs with
  | nil => intro n d h; simp [forTrace] at h
  | cons f fs ih =>
    intro n d h
    cases n with
    | zero =>
      simp only [forTrace, List.mem_singleton] at h
      exact AOp.noConfusion h
    | succ n =>
      simp only [forTrace, frameOps, List.mem_cons, List.mem_append,
        List.mem_singleton] at h
      rcases h with h | h | h
      · exact AOp.noConfusion h
      · rcases h with h | h | h | h | h
        · exact AOp.noConfusion h
        · exact AOp.noConfusion h
        · exact AOp.noConfusion h
        · exact AOp.sleepMs.inj h
        · exact absurd h (List.not_mem_nil _)
      · exact ih n d h

/-- Every sleep in the while loop lasts exactly one spinner interval. -/
theorem whileTraceAux_sleep (name : String) :
    ∀ fuel n d, AOp.sleepMs d ∈ whileTraceAux name fuel n → d = spinner_interval := by
  intro fuel
  induction fuel with
  | zero => intro n d h; simp [whileTraceAux] at h
  | succ fuel ih =>
    intro n d h
    cases n with
    | zero =>
      simp only [whileTraceAux, List.mem_singleton] at h
      exact AOp.noConfusion h
    | succ n =>
      simp only [whileTraceAux, List.mem_cons, List.mem_append] at h
      rcases h with h | h | h
      · exact AOp.noConfusion h
      · exact forTrace_sleep name SPINNER_FRAMES n d h
      · exact ih (forTrace name SPINNER_FRAMES n).2 d h

/-- Every sleep in the whole animation trace lasts exactly one spinner
interval (one frame interval, 100 ms). -/
theorem animateTrace_sleep (name : String) (k : Nat) (d : Nat)
    (h : AOp.sleepMs d ∈ animateTrace name k) : d = spinner_interval := by
  rw [animateTrace, whileTrace] at h
  rcases List.mem_append.mp h with h | h
  · exact whileTraceAux_sleep name (k + 1) k d h
  · simp only [List.mem_singleton] at h
    exact AOp.noConfusion h

/-- The frame loop splits into a part before any `True` flag read and a
(possibly empty) all-`True`-reads tail; when that tail is non-empty the
budget is exhausted. -/
theorem forTrace_split (name : String) (fs : List String) :
    ∀ n, ∃ t0 t1,
      (forTrace name fs n).1 = t0 ++ t1 ∧ AOp.check true ∉ t0 ∧
      (∀ op ∈ t1, op = AOp.check true) ∧
      (t1 ≠ [] → (forTrace name fs n).2 = 0) := by
  induction fs with
  | nil =>
    intro n
    refine ⟨[], [], rfl, by simp, by simp, ?_⟩
    intro h
    exact absurd rfl h
  | cons f fs ih =>
    intro n
    cases n with
    | zero =>
      refine ⟨[], [AOp.check true], by simp [forTrace], by simp, ?_, ?_⟩
      · intro op hop
        simpa using hop
      · intro _
        simp [forTrace]
    | succ n =>
      obtain ⟨t0, t1, heq, hnot, hall, hz⟩ := ih n
      refine ⟨AOp.check false :: (frameOps name f ++ t0), t1, ?_, ?_, hall, ?_⟩
      · show AOp.check false :: (frameOps name f ++ (forTrace name fs n).1) = _
        rw [heq]
        simp
      · simp only [List.mem_cons, List.mem_append, not_or]
        refine ⟨by simp, ?_, hnot⟩
        simp [frameOps]
      · intro h1
        show (forTrace name fs n).2 = 0
        exact hz h1

/-- The while loop splits into a part before any `True` flag read and an
all-`True`-reads tail: once the flag is observed set, the loop performs
nothing but (`True`) flag reads. -/
theorem whileTraceAux_split (name : String) :
    ∀ fuel n, ∃ pre post,
      whileTraceAux name fuel n = pre ++ post ∧
      AOp.check true ∉ pre ∧ ∀ op ∈ post, op = AOp.check true := by
  intro fuel
  induction fuel with
  | zero => intro n; exact ⟨[], [], rfl, by simp, by simp⟩
  | succ fuel ih =>
    intro n
    cases n with
    | zero =>
      refine ⟨[], [AOp.check true], rfl, by simp, ?_⟩
      intro op hop
      simpa using hop
    | succ n =>
      obtain ⟨t0, t1, heq, hnot0, hall1, hz⟩ := forTrace_split name SPINNER_FRAMES n
      by_cases h1 : t1 = []
      · subst h1
        obtain ⟨pre, post, heq2, hnot2, hall2⟩ := ih (forTrace name SPINNER_FRAMES n).2
        refine ⟨AOp.check false :: (t0 ++ pre), post, ?_, ?_, hall2⟩
        · show AOp.check false ::
            ((forTrace name SPINNER_FRAMES n).1 ++
              whileTraceAux name fuel (forTrace name SPINNER_FRAMES n).2) = _
          rw [heq, heq2]
          simp
        · simp only [List.mem_cons, List.mem_append, not_or]
          exact ⟨by simp, hnot0, hnot2⟩
      · have hz0 := hz h1
        refine ⟨AOp.check false :: t0, t1 ++ whileTraceAux name fuel 0, ?_, ?_, ?_⟩
        · show AOp.check false ::
            ((forTrace name SPINNER_FRAMES n).1 ++
              whileTraceAux name fuel (forTrace name SPINNER_FRAMES n).2) = _
          rw [heq, hz0]
          simp
        · simp only [List.mem_cons, not_or]
          exact ⟨by simp, hnot0⟩
        · intro op hop
          rcases List.mem_append.mp hop with h | h
          · exact hall1 op h
          · cases fuel with
            | zero => simp [whileTraceAux] at h
            | succ fuel =>
              simp only [whileTraceAux, List.mem_singleton] at h
              exact h

/-- C3's termination component at the level of the whole animation trace:
after the first `True` flag read, the only remaining operations are
further `True` flag reads and the final cursor-reset write. -/
theorem animateTrace_split (name : String) (k : Nat) :
    ∃ pre post, animateTrace name k = pre ++ post ∧ AOp.check true ∉ pre ∧
      ∀ op ∈ post, op = AOp.check true ∨ op = AOp.write "\r " := by
  obtain ⟨pre, post, heq, hnot, hall⟩ := whileTraceAux_split name (k + 1) k
  refine ⟨pre, post ++ [AOp.write "\r "], ?_, hnot, ?_⟩
  · rw [animateTrace, whileTrace, heq]
    simp
  · intro op hop
    rcases List.mem_append.mp hop with h | h
    · exact Or.inl (hall op h)
    · simp only [List.mem_singleton] at h
      exact Or.inr h

/-- A flag read never forms a double sleep with anything. -/
theorem notBothSleep_check_left (b : Bool) (y : AOp) :
    notBothSleep (AOp.check b) y = true := by
  cases y <;> rfl

/-- After a sleep, any non-sleep operation is fine. -/
theorem notBothSleep_right_of_headNotSleep (d : Nat) (x : AOp) (xs : List AOp)
    (h : headNotSleep (x :: xs) = true) :
    notBothSleep (AOp.sleepMs d) x = true := by
  cases x with
  | check b => rfl
  | write s => rfl
  | flush => rfl
  | sleepMs m => exact absurd h (by simp [headNotSleep])

/-- Prepending a flag read preserves sleep spacing. -/
theorem noDoubleSleep_cons_check (b : Bool) (l : List AOp) :
    noDoubleSleep (AOp.check b :: l) = noDoubleSleep l := by
  cases l with
  | nil => rfl
  | cons x xs =>
    show (notBothSleep (AOp.check b) x && noDoubleSleep (x :: xs)) = _
    rw [notBothSleep_check_left]
    simp

/-- Prepending frame skeletons preserves sleep spacing when the remainder
does not begin with a sleep. -/
theorem noDoubleSleep_csRep_append (l : List AOp)
    (hh : headNotSleep l = true) (hl : noDoubleSleep l = true) :
    ∀ j, noDoubleSleep (csRep j ++ l) = true := by
  intro j
  induction j with
  | zero => simpa [csRep] using hl
  | succ j ih =>
    have e : csRep (j + 1) ++ l =
        AOp.check false :: AOp.sleepMs spinner_interval :: (csRep j ++ l) := by
      simp [csRep]
    rw [e, noDoubleSleep_cons_check]
    cases hj : csRep j ++ l with
    | nil => rfl
    | cons x xs =>
      have hx : headNotSleep (x :: xs) = true := by
        cases j with
        | zero =>
          have : l = x :: xs := by simpa [csRep] using hj
          rw [this] at hh
          exact hh
        | succ j =>
          have : x = AOp.check false := by
            have := hj
            simp only [csRep, List.cons_append] at this
            exact (List.cons.inj this).1.symm
          rw [this]
          rfl
      show (notBothSleep (AOp.sleepMs spinner_interval) x &&
        noDoubleSleep (x :: xs)) = true
      rw [notBothSleep_right_of_headNotSleep spinner_interval x xs hx]
      rw [← hj, ih]
      rfl

/-- The scheduling skeleton of the frame loop: one `False` read plus one
sleep per rendered frame, ending in a lone `True` read exactly when the
budget ran out inside the loop. -/
theorem forTrace_filter (name : String) (fs : List String) :
    ∀ n, (forTrace name fs n).1.filter schedOp =
      if n < fs.length then csRep n ++ [AOp.check true] else csRep fs.length := by
  induction fs with
  | nil => intro n; simp [forTrace, csRep]
  | cons f fs ih =>
    intro n
    cases n with
    | zero =>
      simp only [forTrace, List.length_cons]
      rw [if_pos (Nat.zero_lt_succ fs.length)]
      rfl
    | succ n =>
      have e : (forTrace name (f :: fs) (n + 1)).1 =
          AOp.check false :: (frameOps name f ++ (forTrace name fs n).1) := rfl
      rw [e, List.filter_cons, List.filter_append]
      have ef : (frameOps name f).filter schedOp =
          [AOp.sleepMs spinner_interval] := rfl
      rw [ef, ih n]
      simp only [List.length_cons]
      by_cases h : n < fs.length
      · rw [if_pos h, if_pos (Nat.succ_lt_succ h)]
        simp [csRep, schedOp]
      · rw [if_neg h, if_neg (fun h2 => h (Nat.lt_of_succ_lt_succ h2))]
        simp [csRep, schedOp]

/-- The while loop's scheduling operations always begin with a flag read
(never with a sleep). -/
theorem whileTraceAux_filter_headNotSleep (name : String) (fuel n : Nat) :
    headNotSleep ((whileTraceAux name fuel n).filter schedOp) = true := by
  cases fuel with
  | zero => rfl
  | succ fuel =>
    cases n with
    | zero => rfl
    | succ n =>
      show headNotSleep ((AOp.check false :: _).filter schedOp) = true
      rw [List.filter_cons]
      simp only [schedOp]
      rfl

/-- Sleep spacing for the while loop: between any two consecutive flag
reads there is at most one sleep. -/
theorem whileTraceAux_noDoubleSleep (name : String) :
    ∀ fuel n, noDoubleSleep ((whileTraceAux name fuel n).filter schedOp) = true := by
  intro fuel
  induction fuel with
  | zero => intro n; rfl
  | succ fuel ih =>
    intro n
    cases n with
    | zero => rfl
    | succ n =>
      have e : whileTraceAux name (fuel + 1) (n + 1) =
          AOp.check false ::
            ((forTrace name SPINNER_FRAMES n).1 ++
              whileTraceAux name fuel (forTrace name SPINNER_FRAMES n).2) := rfl
      rw [e, List.filter_cons]
      have hc : schedOp (AOp.check false) = true := rfl
      rw [hc]
      simp only [if_true]
      rw [List.filter_append, noDoubleSleep_cons_check, forTrace_filter]
      have hh := whileTraceAux_filter_headNotSleep name fuel
        (forTrace name SPINNER_FRAMES n).2
      have hw := ih (forTrace name SPINNER_FRAMES n).2
      by_cases h : n < SPINNER_FRAMES.length
      · rw [if_pos h]
        rw [List.append_assoc]
        apply noDoubleSleep_csRep_append
        · rfl
        · rw [show ([AOp.check true] ++
            (whileTraceAux name fuel (forTrace name SPINNER_FRAMES n).2).filter schedOp) =
            AOp.check true ::
              (whileTraceAux name fuel (forTrace name SPINNER_FRAMES n).2).filter schedOp
            from rfl]
          rw [noDoubleSleep_cons_check]
          exact hw
      · rw [if_neg h]
        exact noDoubleSleep_csRep_append _ hh hw SPINNER_FRAMES.length

/-- Sleep spacing for the whole animation trace. -/
theorem animateTrace_noDoubleSleep (name : String) (k : Nat) :
    noDoubleSleep ((animateTrace name k).filter schedOp) = true := by
  rw [animateTrace, whileTrace, List.filter_append]
  have e : [AOp.write "\r "].filter schedOp = [] := rfl
  rw [e, List.append_nil]
  exact whileTraceAux_noDoubleSleep name (k + 1) k

/-- The fuel in `whileTraceAux` is inessential: any fuel strictly above
the `False` budget yields the same trace, so `whileTrace` (fuel `k + 1`)
is the loop's genuine behaviour, not a truncation. -/
theorem whileTraceAux_fuel_irrelevant (name : String) :
    ∀ f1 f2 n, n < f1 → n < f2 →
      whileTraceAux name f1 n = whileTraceAux name f2 n := by
  intro f1
  induction f1 with
  | zero => intro f2 n h1; exact absurd h1 (Nat.not_lt_zero n)
  | succ f1 ih =>
    intro f2 n h1 h2
    cases f2 with
    | zero => exact absurd h2 (Nat.not_lt_zero n)
    | succ f2 =>
      cases n with
      | zero => rfl
      | succ n =>
        show AOp.check false :: _ = AOp.check false :: _
        have hm : (forTrace name SPINNER_FRAMES n).2 ≤ n := by
          rw [forTrace_snd]
          omega
        rw [ih f2 (forTrace name SPINNER_FRAMES n).2
          (by omega) (by omega)]

/-- `run_with_animation` signals the stop event exactly once, on both exit
paths. -/
theorem run_with_animation_sets_once (α ε : Type) (fres : Except ε α) :
    ((run_with_animation α ε fres).filter isSetStopEv).length = 1 := by
  cases fres <;> rfl

/-- The stop flag observed by the animation loop is monotone. -/
theorem stopFlag_monotone (k c c2 : Nat) (hcc : c ≤ c2)
    (hc : stopFlag k c = true) : stopFlag k c2 = true := by
  simp only [stopFlag, decide_eq_true_eq] at hc ⊢
  omega

/-- C3 (amended): the spinner's cancellation flag is monotonic (once
observed set it stays set; `run_with_animation` signals it exactly once
per invocation on either exit path), and the animation loop reads the flag
once per glyph frame, sleeping a single uninterrupted 100 ms interval per
frame (`0.001 * interval` seconds is a unit conversion of the 100 ms
interval, not a 1 ms check granularity); every sleep lasts exactly one
frame interval and at most one sleep separates consecutive flag reads, so
the loop observes cancellation within one frame interval, and after the
first read that observes the flag set it performs no further writes or
sleeps — only the final cursor reset. -/
theorem animate_cancellation_spec (name : String) (k c c2 : Nat)
    (hcc : c ≤ c2) (hset : stopFlag k c = true) :
    stopFlag k c2 = true ∧
    (∀ (α ε : Type) (fres : Except ε α),
      ((run_with_animation α ε fres).filter isSetStopEv).length = 1) ∧
    (∀ d, AOp.sleepMs d ∈ animateTrace name k → d = spinner_interval) ∧
    (∃ pre post, animateTrace name k = pre ++ post ∧ AOp.check true ∉ pre ∧
      ∀ op ∈ post, op = AOp.check true ∨ op = AOp.write "\r ") ∧
    noDoubleSleep ((animateTrace name k).filter schedOp) = true :=
  ⟨stopFlag_monotone k c c2 hcc hset,
    fun α ε fres => run_with_animation_sets_once α ε fres,
    fun d hd => animateTrace_sleep name k d hd,
    animateTrace_split name k,
    animateTrace_noDoubleSleep name k⟩

/-- Witness for C3's amended statement at `k = 2`, reads `3 ≤ 5`. -/
theorem animate_cancellation_spec_witness :
    (3 ≤ 5 ∧ stopFlag 2 3 = true) ∧ stopFlag 2 5 = true := by
  refine ⟨⟨by decide, by decide⟩, ?_⟩
  exact (animate_cancellation_spec "Loading" 2 3 5 (by decide) (by decide)).1

/-- C3 counterexample to the ≈1 ms check granularity: with the stop signal
arriving after two `False` reads, the loop's scheduling operations are two
flag reads, then one single uninterrupted sleep of `spinner_interval =
100` ms, then the `True` reads — the flag is read once per ~100 ms frame,
not at ≈1 ms granularity (100 ≠ 1). -/
theorem animate_check_granularity_cex :
    spinner_interval = 100 ∧
    (animateTrace "Loading" 2).filter schedOp =
      [AOp.check false, AOp.check false, AOp.sleepMs 100,
        AOp.check true, AOp.check true] ∧
    ¬ (spinner_interval ≤ 1) := by
  refine ⟨rfl, by decide, by decide⟩

/-- A maximal digit run followed by a dot: `takeWhile`/`dropWhile` split
exactly at the dot. -/
theorem takeWhile_digits_dot (d r : List Char)
    (hd : ∀ c ∈ d, c.isDigit = true) :
    (d ++ '.' :: r).takeWhile Char.isDigit = d ∧
    (d ++ '.' :: r).dropWhile Char.isDigit = '.' :: r := by
  induction d with
  | nil =>
    have hdot : Char.isDigit '.' = false := by decide
    constructor
    · simp [List.takeWhile_cons, hdot]
    · simp [List.dropWhile_cons, hdot]
  | cons c d ih =>
    have hc : c.isDigit = true := hd c (List.mem_cons_self c d)
    obtain ⟨h1, h2⟩ := ih (fun x hx => hd x (List.mem_cons_of_mem c hx))
    constructor
    · simp [List.takeWhile_cons, hc, h1]
    · simp [List.dropWhile_cons, hc, h2]

/-- An all-digit run extends `takeWhile`/`dropWhile` over an append. -/
theorem takeWhile_digits_append (d r : List Char)
    (hd : ∀ c ∈ d, c.isDigit = true) :
    (d ++ r).takeWhile Char.isDigit = d ++ r.takeWhile Char.isDigit ∧
    (d ++ r).dropWhile Char.isDigit = r.dropWhile Char.isDigit := by
  induction d with
  | nil => constructor <;> simp
  | cons c d ih =>
    have hc : c.isDigit = true := hd c (List.mem_cons_self c d)
    obtain ⟨h1, h2⟩ := ih (fun x hx => hd x (List.mem_cons_of_mem c hx))
    constructor
    · simp [List.takeWhile_cons, hc, h1]
    · simp [List.dropWhile_cons, hc, h2]

/-- Success equation for `expectDotRun` from the two splits. -/
theorem expectDotRun_eq_some (l d r : List Char)
    (ht : l.takeWhile Char.isDigit = d)
    (hw : l.dropWhile Char.isDigit = '.' :: r) :
    expectDotRun l = some (d, r) := by
  rw [expectDotRun.eq_def, hw, ht]
  rfl

/-- Inversion for `expectDotRun`. -/
theorem expectDotRun_sound (l d r : List Char)
    (h : expectDotRun l = some (d, r)) :
    l.takeWhile Char.isDigit = d ∧ l.dropWhile Char.isDigit = '.' :: r := by
  rw [expectDotRun.eq_def] at h
  split at h
  · rename_i r2 heq
    obtain ⟨h1, h2⟩ := Prod.mk.injEq .. ▸ Option.some.inj h
    exact ⟨h1, by rw [heq, h2]⟩
  · exact Option.noConfusion h

/-- Completeness of the anchored matcher: at a position where a dotted
triple starts, the greedy matcher succeeds. -/
theorem matchTripleAt_isSome_of_triple (mid post : List Char)
    (h : IsTriple mid) : ∃ m, matchTripleAt (mid ++ post) = some m := by
  obtain ⟨d1, d2, d3, h1, h2, h3, hd1, hd2, hd3, heq⟩ := h
  subst heq
  have e : (d1 ++ '.' :: (d2 ++ '.' :: d3)) ++ post =
      d1 ++ '.' :: (d2 ++ '.' :: (d3 ++ post)) := by
    simp
  rw [e]
  obtain ⟨t1, w1⟩ := takeWhile_digits_dot d1 (d2 ++ '.' :: (d3 ++ post)) hd1
  obtain ⟨t2, w2⟩ := takeWhile_digits_dot d2 (d3 ++ post) hd2
  obtain ⟨t3, w3⟩ := takeWhile_digits_append d3 post hd3
  have he1 := expectDotRun_eq_some (d1 ++ '.' :: (d2 ++ '.' :: (d3 ++ post)))
    d1 (d2 ++ '.' :: (d3 ++ post)) t1 w1
  have he2 := expectDotRun_eq_some (d2 ++ '.' :: (d3 ++ post))
    d2 (d3 ++ post) t2 w2
  refine ⟨d1 ++ '.' :: (d2 ++ '.' :: (d3 ++ post.takeWhile Char.isDigit)), ?_⟩
  simp only [matchTripleAt, he1, he2, Option.some_bind, t3]
  rw [if_neg]
  · simp only [Bool.or_eq_true, List.isEmpty_iff, List.append_eq_nil, not_or]
    exact ⟨⟨h1, h2⟩, fun hc => h3 hc.1⟩

/-- `re.search` fails exactly when the anchored matcher fails at every
position. -/
theorem searchTriple_eq_none_iff (l : List Char) :
    searchTriple l = none ↔
      ∀ pre post : List Char, l = pre ++ post → matchTripleAt post = none := by
  induction l with
  | nil =>
    constructor
    · intro _ pre post h
      have hpost : post = [] := (List.append_eq_nil.mp h.symm).2
      rw [hpost]
      rfl
    · intro _
      rfl
  | cons c rest ih =>
    simp only [searchTriple]
    cases hm : matchTripleAt (c :: rest) with
    | some m =>
      constructor
      · intro h
        exact Option.noConfusion h
      · intro hall
        have := hall [] (c :: rest) rfl
        rw [hm] at this
        exact Option.noConfusion this
    | none =>
      constructor
      · intro h pre post heq
        cases pre with
        | nil =>
          simp only [List.nil_append] at heq
          rw [← heq]
          exact hm
        | cons c0 pre =>
          have hc := (List.cons.inj heq).2
          exact ih.mp h pre post hc
      · intro hall
        exact ih.mpr (fun pre post heq => hall (c :: pre) post (by rw [heq]; rfl))

/-- `re.search` succeeds at the leftmost matching position: every strictly
earlier position fails the anchored matcher. -/
theorem searchTriple_eq_some_min (l m : List Char) :
    searchTriple l = some m →
      ∃ pre post, l = pre ++ post ∧ matchTripleAt post = some m ∧
        ∀ pre2 post2, l = pre2 ++ post2 → pre2.length < pre.length →
          matchTripleAt post2 = none := by
  induction l with
  | nil => intro h; exact Option.noConfusion h
  | cons c rest ih =>
    intro h
    simp only [searchTriple] at h
    cases hm : matchTripleAt (c :: rest) with
    | some m0 =>
      rw [hm] at h
      refine ⟨[], c :: rest, rfl, by rw [hm, Option.some.inj h], ?_⟩
      intro pre2 post2 _ hlt
      simp at hlt
    | none =>
      rw [hm] at h
      obtain ⟨pre, post, heq, hmt, hmin⟩ := ih h
      refine ⟨c :: pre, post, by rw [heq]; rfl, hmt, ?_⟩
      intro pre2 post2 heq2 hlt
      cases pre2 with
      | nil =>
        simp only [List.nil_append] at heq2
        rw [← heq2]
        exact hm
      | cons c2 pre2 =>
        have hc := (List.cons.inj heq2).2
        exact hmin pre2 post2 hc (by simpa using hlt)

/-- Soundness of the anchored matcher: a successful match is a dotted
triple and a prefix of the scanned suffix. -/
theorem matchTripleAt_sound (t m : List Char)
    (h : matchTripleAt t = some m) :
    IsTriple m ∧ ∃ rest, t = m ++ rest := by
  unfold matchTripleAt at h
  cases he1 : expectDotRun t with
  | none => rw [he1] at h; exact Option.noConfusion h
  | some p1 =>
    rw [he1, Option.some_bind] at h
    cases he2 : expectDotRun p1.2 with
    | none => rw [he2] at h; exact Option.noConfusion h
    | some p2 =>
      rw [he2, Option.some_bind] at h
      by_cases hif : (p1.1.isEmpty || p2.1.isEmpty ||
          (p2.2.takeWhile Char.isDigit).isEmpty) = true
      · rw [if_pos hif] at h
        exact Option.noConfusion h
      · rw [if_neg hif] at h
        have hm := Option.some.inj h
        simp only [Bool.or_eq_true, List.isEmpty_iff, not_or] at hif
        obtain ⟨⟨hne1, hne2⟩, hne3⟩ := hif
        obtain ⟨ht1, hw1⟩ := expectDotRun_sound t p1.1 p1.2 (by rw [he1])
        obtain ⟨ht2, hw2⟩ := expectDotRun_sound p1.2 p2.1 p2.2 (by rw [he2])
        constructor
        · refine ⟨p1.1, p2.1, p2.2.takeWhile Char.isDigit, hne1, hne2, hne3,
            ?_, ?_, ?_, hm.symm⟩
          · intro x hx
            rw [← ht1] at hx
            simpa using List.mem_takeWhile_imp hx
          · intro x hx
            rw [← ht2] at hx
            simpa using List.mem_takeWhile_imp hx
          · intro x hx
            simpa using List.mem_takeWhile_imp hx
        · refine ⟨p2.2.dropWhile Char.isDigit, ?_⟩
          rw [← hm]
          have et : t = p1.1 ++ '.' :: p1.2 := by
            rw [← ht1, ← hw1, List.takeWhile_append_dropWhile]
          have e1 : p1.2 = p2.1 ++ '.' :: p2.2 := by
            rw [← ht2, ← hw2, List.takeWhile_append_dropWhile]
          have e2 : p2.2 = p2.2.takeWhile Char.isDigit ++
              p2.2.dropWhile Char.isDigit := by
            rw [List.takeWhile_append_dropWhile]
          rw [et, e1]
          conv_lhs => rw [e2]
          simp

/-- C7: `extract_version_triple` returns the first (leftmost) substring of
its input matching the dotted-digits `X.Y.Z` pattern — the returned text
is such a triple, occurs in the input, and no such triple starts at any
earlier position — and it raises the parse `ValueError` exactly when the
input contains no such substring; in particular
`extract_version_triple "algokit 1.2.3 (build 9)"` returns `"1.2.3"` and
`extract_version_triple "no version here"` raises the parse error. -/
theorem extract_version_triple_spec (s r : String)
    (h : extract_version_triple s = Except.ok r) :
    (extract_version_triple "algokit 1.2.3 (build 9)" = Except.ok "1.2.3") ∧
    (extract_version_triple "no version here" =
      Except.error (PyErr.valueError "Unable to parse version number")) ∧
    (∀ s2 : String,
      extract_version_triple s2 =
          Except.error (PyErr.valueError "Unable to parse version number") ↔
        ¬ ContainsTriple s2) ∧
    (∃ pre post : List Char,
      s.data = pre ++ r.data ++ post ∧ IsTriple r.data ∧
      ∀ pre2 mid2 post2 : List Char,
        s.data = pre2 ++ mid2 ++ post2 → IsTriple mid2 →
          pre.length ≤ pre2.length) := by
  have hiff : ∀ s2 : String,
      extract_version_triple s2 =
          Except.error (PyErr.valueError "Unable to parse version number") ↔
        ¬ ContainsTriple s2 := by
    intro s2
    cases hs : searchTriple s2.data with
    | some m =>
      simp only [extract_version_triple, hs]
      constructor
      · intro hcontra
        exact Except.noConfusion hcontra
      · intro hnc
        exfalso
        apply hnc
        obtain ⟨pre, post, heq, hmt, _⟩ := searchTriple_eq_some_min s2.data m hs
        obtain ⟨htrip, rest, hrest⟩ := matchTripleAt_sound post m hmt
        refine ⟨pre, m, rest, ?_, htrip⟩
        rw [heq, hrest]
        simp
    | none =>
      simp only [extract_version_triple, hs]
      constructor
      · intro _ hc
        obtain ⟨pre, mid, post, heq, htrip⟩ := hc
        obtain ⟨m, hm⟩ := matchTripleAt_isSome_of_triple mid post htrip
        have := (searchTriple_eq_none_iff s2.data).mp hs pre (mid ++ post)
          (by rw [heq]; simp)
        rw [hm] at this
        exact Option.noConfusion this
      · intro _
        trivial
  refine ⟨rfl, rfl, hiff, ?_⟩
  revert h
  rw [extract_version_triple]
  cases hs : searchTriple s.data with
  | none => intro h; exact Except.noConfusion h
  | some m =>
    intro h
    have hr : r = String.mk m := (Except.ok.inj h).symm
    have hrd : r.data = m := by rw [hr]
    obtain ⟨pre, post, heq, hmt, hmin⟩ := searchTriple_eq_some_min s.data m hs
    obtain ⟨htrip, rest, hrest⟩ := matchTripleAt_sound post m hmt
    refine ⟨pre, rest, ?_, by rw [hrd]; exact htrip, ?_⟩
    · rw [hrd, heq, hrest]
      simp
    · intro pre2 mid2 post2 heq2 htrip2
      by_contra hlt
      push_neg at hlt
      have h0 := hmin pre2 (mid2 ++ post2) (by rw [heq2]; simp) hlt
      obtain ⟨m2, hm2⟩ := matchTripleAt_isSome_of_triple mid2 post2 htrip2
      rw [hm2] at h0
      exact Option.noConfusion h0

/-- Witness for C7 at the spec's example input. -/
theorem extract_version_triple_spec_witness :
    extract_version_triple "algokit 1.2.3 (build 9)" = Except.ok "1.2.3" ∧
    (∃ pre post : List Char,
      ("algokit 1.2.3 (build 9)" : String).data =
          pre ++ ("1.2.3" : String).data ++ post ∧
      IsTriple ("1.2.3" : String).data ∧
      ∀ pre2 mid2 post2 : List Char,
        ("algokit 1.2.3 (build 9)" : String).data = pre2 ++ mid2 ++ post2 →
          IsTriple mid2 → pre.length ≤ pre2.length) := by
  refine ⟨rfl, ?_⟩
  exact (extract_version_triple_spec "algokit 1.2.3 (build 9)" "1.2.3" rfl).2.2.2
